import Mathlib

/-!
# Verification of the `kdtree` package (geshuning/store)

A shallow embedding of `src/kdtree.go`: points are rational coordinate
vectors, `float64` distances are `WithTop ℚ` (`⊤` plays the role of
`math.Inf(1)`), Go's `nil` pointers become `Option`/a `leaf` constructor,
and code paths that dereference a nil pointer or call `make` with an
invalid capacity return `none` (a panic).  The `Pivot` operation of the
point-source `Interface` is caller-supplied, so tree construction is
embedded as a relation (`BuildG`) whose side conditions are exactly the
documented partition postcondition.
-/

namespace KD

/-- A stored value.  The `Comparable` contract of the source documents
`Compare` as the per-axis coordinate difference and `Distance` as the
squared Euclidean distance, so a value is embedded as its coordinate
vector; `canExtend` records whether the dynamic type additionally
implements the `Extender` interface (a type-level fact in Go). -/
structure Comparable where
  coords : List ℚ
  canExtend : Bool
deriving DecidableEq, Repr

/-- The `d`-th coordinate of a point. -/
def coord (p : Comparable) (d : Nat) : ℚ := p.coords.getD d 0

/-- `a.Compare(b, d) = a_d - b_d` (documented contract of `Comparable.Compare`). -/
def compare (a b : Comparable) (d : Nat) : ℚ := coord a d - coord b d

/-- `a.Distance(b)`: squared Euclidean distance over the receiver's
dimensions (documented contract of `Comparable.Distance`). -/
def distance (a b : Comparable) : ℚ :=
  ((List.range a.coords.length).map
    (fun d => (coord a d - coord b d) * (coord a d - coord b d))).sum

/-- `Bounding`: a volume bounding box `[2]Comparable` (low corner, high corner). -/
abbrev Bounding := Comparable × Comparable

/-- `(*Bounding).Contains(c)` for a non-nil receiver. -/
def containsB (b : Bounding) (c : Comparable) : Bool :=
  (List.range c.coords.length).all
    (fun d => !(decide (compare c b.1 d < 0) || decide (compare c b.2 d > 0)))

/-- `(*Bounding).Contains(c)`: a nil `*Bounding` returns true. -/
def contains (b : Option Bounding) (c : Comparable) : Bool :=
  match b with
  | none => true
  | some bb => containsB bb c

/-- Modelled from the spec: `Extender.Extend` is implemented by callers,
not by `src/kdtree.go`; per the spec it "grows a bounding volume to
include the point", which for an axis-aligned box is the componentwise
min/max of the corners with the point. -/
def extendCorners (b : Bounding) (c : Comparable) : Bounding :=
  (⟨List.zipWith min b.1.coords c.coords, b.1.canExtend⟩,
   ⟨List.zipWith max b.2.coords c.coords, b.2.canExtend⟩)

/-- Modelled from the spec: `c.Extend(b)` with a possibly-nil incoming
bound; a nil bound is initialised to the degenerate box at `c`. -/
def extend (c : Comparable) : Option Bounding → Option Bounding
  | none => some (c, c)
  | some b => some (extendCorners b c)

/-- Modelled from the spec: `Bounder.Bounds()` of the point-source is
caller-supplied; per the spec it computes "a bounding volume over its
current (sub-)range", i.e. componentwise min/max corners over the range
(nil for an empty range). -/
def boundsOf : List Comparable → Option Bounding
  | [] => none
  | p :: rest => some (rest.foldl extendCorners (p, p))

/-- A `Node` of the k-d tree; `leaf` is Go's nil `*Node`. -/
inductive Node where
  | leaf : Node
  | node (point : Comparable) (plane : Nat) (left right : Node)
      (bounding : Option Bounding) : Node
deriving DecidableEq, Repr

/-- The stored points of a subtree, in the in-order sequence used by `Do`. -/
def Node.pts : Node → List Comparable
  | Node.leaf => []
  | Node.node pt _ l r _ => Node.pts l ++ pt :: Node.pts r

def Node.isLeaf : Node → Bool
  | Node.leaf => true
  | Node.node _ _ _ _ _ => false

def Node.bound : Node → Option Bounding
  | Node.leaf => none
  | Node.node _ _ _ _ b => b

def Node.point : Node → Comparable
  | Node.leaf => ⟨[], false⟩
  | Node.node pt _ _ _ _ => pt

def Node.left : Node → Node
  | Node.leaf => Node.leaf
  | Node.node _ _ l _ _ => l

def Node.right : Node → Node
  | Node.leaf => Node.leaf
  | Node.node _ _ _ r _ => r

/-- `t.Root.Bounding = nil` (assignment in `Tree.Insert`). -/
def Node.clearBound : Node → Node
  | Node.leaf => Node.leaf
  | Node.node pt pl l r _ => Node.node pt pl l r none

/-- A `Tree`: root node plus running count. -/
structure Tree where
  root : Node
  count : Int
deriving DecidableEq, Repr

/-- The construction relation.  `build`/`buildBounded` delegate the
in-place partition to the source's `Pivot`, whose postcondition is: after
the call, elements with coordinate ≤ the pivot's precede it and strictly
larger ones follow.  `BuildG bnd ps pl t` holds iff `t` is a tree that
`build` (for `bnd = false`) or `buildBounded` (for `bnd = true`, with the
modelled `Bounds`) can produce from a source holding the points `ps` with
starting plane `pl`. -/
inductive BuildG (bnd : Bool) : List Comparable → Nat → Node → Prop
  | nil : ∀ pl, BuildG bnd [] pl Node.leaf
  | node : ∀ (pre : List Comparable) (piv : Comparable) (suf ps : List Comparable)
      (pl : Nat) (l r : Node),
      List.Perm (pre ++ piv :: suf) ps →
      (∀ p ∈ pre, compare p piv pl ≤ 0) →
      (∀ p ∈ suf, 0 < compare p piv pl) →
      BuildG bnd pre ((pl + 1) % piv.coords.length) l →
      BuildG bnd suf ((pl + 1) % piv.coords.length) r →
      BuildG bnd ps pl
        (Node.node piv pl l r (if bnd then boundsOf (pre ++ piv :: suf) else none))

/-- `(*Node).insert`. -/
def Node.insert : Node → Comparable → Nat → Node
  | Node.leaf, c, d => Node.node c d Node.leaf Node.leaf none
  | Node.node pt pl l r b, c, _ =>
    if compare c pt pl ≤ 0 then
      Node.node pt pl (Node.insert l c ((pl + 1) % c.coords.length)) r b
    else
      Node.node pt pl l (Node.insert r c ((pl + 1) % c.coords.length)) b

/-- `(*Node).insertBounded` (with the modelled `Extend`). -/
def Node.insertBounded : Node → Comparable → Nat → Bool → Node
  | Node.leaf, c, d, bounding =>
    Node.node c d Node.leaf Node.leaf (if bounding then some (c, c) else none)
  | Node.node pt pl l r b, c, _, bounding =>
    let b' := if bounding then extend c b else b
    if compare c pt pl ≤ 0 then
      Node.node pt pl (Node.insertBounded l c ((pl + 1) % c.coords.length) bounding) r b'
    else
      Node.node pt pl l (Node.insertBounded r c ((pl + 1) % c.coords.length) bounding) b'

/-- `(*Tree).Insert`. -/
def Tree.Insert (t : Tree) (c : Comparable) (bounding0 : Bool) : Tree :=
  let bounding := if t.root.isLeaf then bounding0 else (Node.bound t.root).isSome
  if c.canExtend && bounding then
    ⟨Node.insertBounded t.root c 0 bounding, t.count + 1⟩
  else if !c.canExtend && !t.root.isLeaf then
    ⟨Node.insert (Node.clearBound t.root) c 0, t.count + 1⟩
  else
    ⟨Node.insert t.root c 0, t.count + 1⟩

/-- `(*Tree).Contains`.  On an empty tree `t.Root.Bounding` dereferences a
nil `*Node`; the panic is `none`. -/
def Tree.Contains (t : Tree) (c : Comparable) : Option Bool :=
  match t.root with
  | Node.leaf => none
  | root =>
    match Node.bound root with
    | none => some true
    | some b => some (containsB b c)

/-- `if ld < dist { dist, bn = ld, ln }`: take the new result when its
distance strictly improves. -/
def sel (a b : Option Node × WithTop ℚ) : Option Node × WithTop ℚ :=
  if b.2 < a.2 then b else a

/-- `(*Node).search`.  The Go locals `c`, `dist` (after the `math.Min`
update) and the running `(bn, dist)` pair after the near-side call are
pure, so they are inlined: `(some n, min dist0 ↑(q.Distance(n.Point)))`
is the running best before the near-side call, `sel` of it with the
near-side result is the running best after it, and the far side is
searched only under the `c*c <= dist` pruning test. -/
def search (q : Comparable) : Node → WithTop ℚ → Option Node × WithTop ℚ
  | Node.leaf, _ => (none, ⊤)
  | Node.node pt pl l r b, dist0 =>
    if compare q pt pl ≤ 0 then
      if ((compare q pt pl * compare q pt pl : ℚ) : WithTop ℚ) ≤
          (sel (some (Node.node pt pl l r b), min dist0 ((distance q pt : ℚ) : WithTop ℚ))
            (search q l (min dist0 ((distance q pt : ℚ) : WithTop ℚ)))).2 then
        sel (sel (some (Node.node pt pl l r b), min dist0 ((distance q pt : ℚ) : WithTop ℚ))
              (search q l (min dist0 ((distance q pt : ℚ) : WithTop ℚ))))
          (search q r ((sel (some (Node.node pt pl l r b),
              min dist0 ((distance q pt : ℚ) : WithTop ℚ))
            (search q l (min dist0 ((distance q pt : ℚ) : WithTop ℚ)))).2))
      else
        sel (some (Node.node pt pl l r b), min dist0 ((distance q pt : ℚ) : WithTop ℚ))
          (search q l (min dist0 ((distance q pt : ℚ) : WithTop ℚ)))
    else
      if ((compare q pt pl * compare q pt pl : ℚ) : WithTop ℚ) ≤
          (sel (some (Node.node pt pl l r b), min dist0 ((distance q pt : ℚ) : WithTop ℚ))
            (search q r (min dist0 ((distance q pt : ℚ) : WithTop ℚ)))).2 then
        sel (sel (some (Node.node pt pl l r b), min dist0 ((distance q pt : ℚ) : WithTop ℚ))
              (search q r (min dist0 ((distance q pt : ℚ) : WithTop ℚ))))
          (search q l ((sel (some (Node.node pt pl l r b),
              min dist0 ((distance q pt : ℚ) : WithTop ℚ))
            (search q r (min dist0 ((distance q pt : ℚ) : WithTop ℚ)))).2))
      else
        sel (some (Node.node pt pl l r b), min dist0 ((distance q pt : ℚ) : WithTop ℚ))
          (search q r (min dist0 ((distance q pt : ℚ) : WithTop ℚ)))

/-- A search result realises its distance at a stored point of `L`. -/
def RealizeIn (q : Comparable) (L : List Comparable) (res : Option Node × WithTop ℚ) :
    Prop :=
  ∃ m : Node, res.1 = some m ∧ Node.point m ∈ L ∧
    res.2 = ((distance q (Node.point m) : ℚ) : WithTop ℚ)

/-- `(*Tree).Nearest`. -/
def Tree.Nearest (t : Tree) (q : Comparable) : Option Comparable × WithTop ℚ :=
  match t.root with
  | Node.leaf => (none, ⊤)
  | root =>
    match search q root ⊤ with
    | (none, _) => (none, ⊤)
    | (some m, dist) => (some (Node.point m), dist)

/-- `NodeDist`: a candidate (node, distance) pair; the embedded `*Node`
may be nil (the seed sentinel of `newNDists`). -/
structure NodeDist where
  node : Option Node
  dist : WithTop ℚ
deriving DecidableEq, Repr

/-- The `nDists` slice: `entries` plus the slice capacity.  `container/heap`
over `nDists.Less i j = (nd[i].Dist > nd[j].Dist)` keeps the maximum
distance at index 0; the heap's array is modelled as the list kept sorted
in non-increasing distance order (heap root = list head, `heap.Pop` =
drop the head, `heap.Push` = ordered insertion), which is observationally
equivalent for everything the algorithm reads: the element at index 0,
the length, and the final fully-sorted contents. -/
structure NDists where
  entries : List NodeDist
  cap : Nat
deriving DecidableEq, Repr

/-- `(*nd)[0].Dist` (the slice is never empty when read). -/
def NDists.headDist (nd : NDists) : WithTop ℚ :=
  (nd.entries.headD ⟨none, ⊤⟩).dist

/-- Ordered insertion into a non-increasing list (the `heap.Push`). -/
def insertDesc (x : NodeDist) : List NodeDist → List NodeDist
  | [] => [x]
  | e :: es => if e.dist < x.dist then x :: e :: es else e :: insertDesc x es

/-- `(*nDists).Keep`. -/
def NDists.keep (nd : NDists) (x : NodeDist) : NDists :=
  if x.dist < nd.headDist then
    if nd.entries.length = nd.cap then
      ⟨insertDesc x nd.entries.tail, nd.cap⟩
    else
      ⟨insertDesc x nd.entries, nd.cap⟩
  else nd

/-- `(*Node).searchN`. -/
def Node.searchN (q : Comparable) : Node → NDists → NDists
  | Node.leaf, ds => ds
  | Node.node pt pl l r b, ds0 =>
    let c := compare q pt pl
    let ds := ds0.keep ⟨some (Node.node pt pl l r b), ((distance q pt : ℚ) : WithTop ℚ)⟩
    if c ≤ 0 then
      let ds1 := Node.searchN q l ds
      if ((c * c : ℚ) : WithTop ℚ) ≤ ds1.headDist then Node.searchN q r ds1 else ds1
    else
      let ds1 := Node.searchN q r ds
      if ((c * c : ℚ) : WithTop ℚ) ≤ ds1.headDist then Node.searchN q l ds1 else ds1

/-- `(*Tree).NearestN`.  `newNDists(n)` is `make(nDists, 1, n)`, which
panics for `n < 1` (capacity below length); building the result slices
reads `n.Point` through each retained `NodeDist`'s embedded `*Node`,
which panics when that pointer is nil (the `+inf` sentinel).  Panics are
`none`. -/
def Tree.NearestN (t : Tree) (n : Int) (q : Comparable) :
    Option (List Comparable × List (WithTop ℚ)) :=
  match t.root with
  | Node.leaf => some ([], [(⊤ : WithTop ℚ)])
  | root =>
    if n < 1 then none
    else
      let nd := Node.searchN q root ⟨[⟨none, ⊤⟩], n.toNat⟩
      match nd.entries with
      | [e] =>
        match e.node with
        | none => some ([], [(⊤ : WithTop ℚ)])
        | some m => some ([Node.point m], [e.dist])
      | es =>
        let asc := es.reverse
        if asc.all (fun e => e.node.isSome) then
          some (asc.map (fun e => Node.point (e.node.getD Node.leaf)),
                asc.map (fun e => e.dist))
        else none

/-- The points visited by `(*Node).doBounded` with a visitor that never
signals `done` (the in-order visit sequence). -/
def Node.doBoundedList : Node → Bounding → List Comparable
  | Node.leaf, _ => []
  | Node.node pt pl l r _, b =>
    (if compare b.1 pt pl < 0 then Node.doBoundedList l b else []) ++
    (if containsB b pt then [pt] else []) ++
    (if 0 < compare b.2 pt pl then Node.doBoundedList r b else [])

/-- Fold of `min` over a list of extended distances (`⊤` for the empty
list): the brute-force minimum distance. -/
def listMinW (l : List (WithTop ℚ)) : WithTop ℚ := l.foldr min ⊤

/-- The brute-force minimum squared distance from `q` to the points of a
subtree (`⊤` for an empty subtree). -/
def mindistW (q : Comparable) (n : Node) : WithTop ℚ :=
  listMinW ((Node.pts n).map (fun p => ((distance q p : ℚ) : WithTop ℚ)))

/-- The ordering invariant of the tree: at every node, left-subtree points
compare ≤ 0 and right-subtree points compare > 0 against the node's point
along the node's plane. -/
def Ordered : Node → Prop
  | Node.leaf => True
  | Node.node pt pl l r _ =>
    (∀ p ∈ Node.pts l, compare p pt pl ≤ 0) ∧
    (∀ p ∈ Node.pts r, 0 < compare p pt pl) ∧ Ordered l ∧ Ordered r

/-- Well-formedness for dimension `k`: every stored point has `k`
coordinates, every plane index is below `k`, and the ordering invariant
holds. -/
def WF (k : Nat) : Node → Prop
  | Node.leaf => True
  | Node.node pt pl l r _ =>
    pt.coords.length = k ∧ pl < k ∧
    (∀ p ∈ Node.pts l, compare p pt pl ≤ 0) ∧
    (∀ p ∈ Node.pts r, 0 < compare p pt pl) ∧ WF k l ∧ WF k r

/-- No corner coordinate of `b` coincides with a node's coordinate along
that node's plane (the condition under which `doBounded`'s strict corner
comparisons cannot drop a subtree containing in-bound points). -/
def noCornerTies (b : Bounding) : Node → Prop
  | Node.leaf => True
  | Node.node pt pl l r _ =>
    compare b.1 pt pl ≠ 0 ∧ compare b.2 pt pl ≠ 0 ∧
    noCornerTies b l ∧ noCornerTies b r

/-- Every node that holds a bounding volume contains every point stored
in its own subtree (the bounding invariant of the spec). -/
def BoundsOK : Node → Prop
  | Node.leaf => True
  | Node.node pt pl l r b =>
    (∀ bb ∈ b, ∀ p ∈ Node.pts (Node.node pt pl l r b), containsB bb p = true) ∧
    BoundsOK l ∧ BoundsOK r

/-- Dimension bookkeeping for bounding volumes: stored points and bound
corners all have `k` coordinates. -/
def DimsOK (k : Nat) : Node → Prop
  | Node.leaf => True
  | Node.node pt _ l r b =>
    pt.coords.length = k ∧
    (∀ bb ∈ b, bb.1.coords.length = k ∧ bb.2.coords.length = k) ∧
    DimsOK k l ∧ DimsOK k r

def Node.allBoundNone : Node → Bool
  | Node.leaf => true
  | Node.node _ _ l r b => b.isNone && Node.allBoundNone l && Node.allBoundNone r

def Node.allBoundSome : Node → Bool
  | Node.leaf => true
  | Node.node _ _ l r b => b.isSome && Node.allBoundSome l && Node.allBoundSome r

/-- Tree states reachable by construction followed by insertions that
never insert a non-extendable point while the root holds a bounding
volume (the restriction that the C5 counterexample forces). -/
inductive SafeReach (k : Nat) : Tree → Prop
  | built : ∀ (bnd : Bool) (ps : List Comparable) (r : Node),
      (∀ p ∈ ps, p.coords.length = k) → BuildG bnd ps 0 r →
      SafeReach k ⟨r, (ps.length : Int)⟩
  | ins : ∀ (t : Tree) (c : Comparable) (bnd : Bool),
      SafeReach k t → c.coords.length = k →
      (c.canExtend = true ∨ Node.bound t.root = none) →
      SafeReach k (Tree.Insert t c bnd)

/-! Concrete instances used by witnesses and counterexamples.  The six
2-D points are the spec's own concrete test scenario. -/

/-- An extendable 1-D point at 0. -/
def p0 : Comparable := ⟨[0], true⟩

/-- An extendable 1-D point at 1. -/
def p1 : Comparable := ⟨[1], true⟩

/-- A non-extendable 1-D point at -1. -/
def cNX : Comparable := ⟨[-1], false⟩

/-- The tree `buildBounded` produces from `[p0, p1]` (pivot `p1`). -/
def treeB : Node :=
  Node.node p1 0 (Node.node p0 0 Node.leaf Node.leaf (boundsOf [p0])) Node.leaf
    (boundsOf [p0, p1])

/-- Two distinct 2-D points sharing their first coordinate. -/
def p00 : Comparable := ⟨[0, 0], false⟩

/-- See `p00`. -/
def p01 : Comparable := ⟨[0, 1], false⟩

/-- The tree `build` produces from `[p00, p01]` (pivot `p01` on plane 0). -/
def treeTie : Node :=
  Node.node p01 0 (Node.node p00 1 Node.leaf Node.leaf none) Node.leaf none

/-- A bound whose low and high corners both have first coordinate 0:
it contains both `p00` and `p01`. -/
def bTie : Bounding := (⟨[0, -5], false⟩, ⟨[0, 5], false⟩)

/-- A 2-D query bound for `treeDemo` with no corner-coordinate ties. -/
def bDemo : Bounding := (⟨[3, 0], false⟩, ⟨[9, 5], false⟩)

def pA : Comparable := ⟨[2, 3], false⟩

def pB : Comparable := ⟨[5, 4], false⟩

def pC : Comparable := ⟨[9, 6], false⟩

def pD : Comparable := ⟨[4, 7], false⟩

def pE : Comparable := ⟨[8, 1], false⟩

def pF : Comparable := ⟨[7, 2], false⟩

def psDemo : List Comparable := [pA, pB, pC, pD, pE, pF]

/-- One tree that `build` can produce from `psDemo` (median pivots). -/
def treeDemo : Node :=
  Node.node pF 0
    (Node.node pB 1 (Node.node pA 0 Node.leaf Node.leaf none)
                    (Node.node pD 0 Node.leaf Node.leaf none) none)
    (Node.node pC 1 (Node.node pE 0 Node.leaf Node.leaf none) Node.leaf none)
    none

/-! ## Theorems -/

theorem buildDemo : BuildG false psDemo 0 treeDemo := by
  have hA : BuildG false [pA] 0 (Node.node pA 0 Node.leaf Node.leaf none) :=
    BuildG.node [] pA [] [pA] 0 Node.leaf Node.leaf (of_decide_eq_true (by with_unfolding_all rfl)) (of_decide_eq_true (by with_unfolding_all rfl)) (of_decide_eq_true (by with_unfolding_all rfl))
      (BuildG.nil _) (BuildG.nil _)
  have hD : BuildG false [pD] 0 (Node.node pD 0 Node.leaf Node.leaf none) :=
    BuildG.node [] pD [] [pD] 0 Node.leaf Node.leaf (of_decide_eq_true (by with_unfolding_all rfl)) (of_decide_eq_true (by with_unfolding_all rfl)) (of_decide_eq_true (by with_unfolding_all rfl))
      (BuildG.nil _) (BuildG.nil _)
  have hE : BuildG false [pE] 0 (Node.node pE 0 Node.leaf Node.leaf none) :=
    BuildG.node [] pE [] [pE] 0 Node.leaf Node.leaf (of_decide_eq_true (by with_unfolding_all rfl)) (of_decide_eq_true (by with_unfolding_all rfl)) (of_decide_eq_true (by with_unfolding_all rfl))
      (BuildG.nil _) (BuildG.nil _)
  have hL : BuildG false [pA, pB, pD] 1
      (Node.node pB 1 (Node.node pA 0 Node.leaf Node.leaf none)
        (Node.node pD 0 Node.leaf Node.leaf none) none) :=
    BuildG.node [pA] pB [pD] [pA, pB, pD] 1 _ _ (of_decide_eq_true (by with_unfolding_all rfl)) (of_decide_eq_true (by with_unfolding_all rfl)) (of_decide_eq_true (by with_unfolding_all rfl)) hA hD
  have hR : BuildG false [pC, pE] 1
      (Node.node pC 1 (Node.node pE 0 Node.leaf Node.leaf none) Node.leaf none) :=
    BuildG.node [pE] pC [] [pC, pE] 1 _ _ (of_decide_eq_true (by with_unfolding_all rfl)) (of_decide_eq_true (by with_unfolding_all rfl)) (of_decide_eq_true (by with_unfolding_all rfl)) hE
      (BuildG.nil _)
  exact BuildG.node [pA, pB, pD] pF [pC, pE] psDemo 0 _ _ (of_decide_eq_true (by with_unfolding_all rfl)) (of_decide_eq_true (by with_unfolding_all rfl))
    (of_decide_eq_true (by with_unfolding_all rfl)) hL hR

theorem buildG_pts {bnd : Bool} {ps : List Comparable} {pl : Nat} {t : Node}
    (h : BuildG bnd ps pl t) : List.Perm (Node.pts t) ps := by
  induction h with
  | nil pl => exact List.Perm.refl _
  | node pre piv suf ps pl l r hperm hpre hsuf hl hr ihl ihr =>
    simp only [Node.pts]
    exact List.Perm.trans (List.Perm.append ihl (List.Perm.cons piv ihr)) hperm

theorem insert_pts (c : Comparable) :
    ∀ (n : Node) (d : Nat),
      List.Perm (Node.pts (Node.insert n c d)) (c :: Node.pts n) := by
  intro n
  induction n with
  | leaf => intro d; simp [Node.insert, Node.pts]
  | node pt pl l r b ihl ihr =>
    intro d
    by_cases h : compare c pt pl ≤ 0
    · simp only [Node.insert, if_pos h, Node.pts]
      exact List.Perm.append_right (pt :: Node.pts r) (ihl _)
    · simp only [Node.insert, if_neg h, Node.pts]
      refine List.Perm.trans
        (List.Perm.append_left _ (List.Perm.cons pt (ihr _))) ?_
      refine List.Perm.trans
        (List.Perm.append_left _ (List.Perm.swap c pt _)) ?_
      exact List.perm_middle

theorem insertBounded_pts (c : Comparable) :
    ∀ (n : Node) (d : Nat) (bnd : Bool),
      List.Perm (Node.pts (Node.insertBounded n c d bnd)) (c :: Node.pts n) := by
  intro n
  induction n with
  | leaf => intro d bnd; simp [Node.insertBounded, Node.pts]
  | node pt pl l r b ihl ihr =>
    intro d bnd
    by_cases h : compare c pt pl ≤ 0
    · simp only [Node.insertBounded, if_pos h, Node.pts]
      exact List.Perm.append_right (pt :: Node.pts r) (ihl _ _)
    · simp only [Node.insertBounded, if_neg h, Node.pts]
      refine List.Perm.trans
        (List.Perm.append_left _ (List.Perm.cons pt (ihr _ _))) ?_
      refine List.Perm.trans
        (List.Perm.append_left _ (List.Perm.swap c pt _)) ?_
      exact List.perm_middle

theorem clearBound_pts (n : Node) : Node.pts (Node.clearBound n) = Node.pts n := by
  cases n <;> rfl

/-- `Tree.Insert` performs one of exactly three actions on the root:
a bounded insert, a plain insert after clearing the root's bound, or a
plain insert. -/
theorem insert_root_cases (t : Tree) (c : Comparable) (bnd : Bool) :
    (∃ b2, (Tree.Insert t c bnd).root = Node.insertBounded t.root c 0 b2) ∨
    (Tree.Insert t c bnd).root = Node.insert (Node.clearBound t.root) c 0 ∨
    (Tree.Insert t c bnd).root = Node.insert t.root c 0 := by
  by_cases h1 :
      (c.canExtend && if t.root.isLeaf then bnd else (Node.bound t.root).isSome) = true
  · exact Or.inl ⟨(if t.root.isLeaf then bnd else (Node.bound t.root).isSome),
      by simp [Tree.Insert, h1]⟩
  · by_cases h2 : (!c.canExtend && !t.root.isLeaf) = true
    · exact Or.inr (Or.inl (by simp [Tree.Insert, h1, h2]))
    · exact Or.inr (Or.inr (by simp [Tree.Insert, h1, h2]))

theorem clearBound_ordered {n : Node} (h : Ordered n) :
    Ordered (Node.clearBound n) := by
  cases n with
  | leaf => trivial
  | node pt pl l r b => exact h

theorem buildG_ordered {bnd : Bool} {ps : List Comparable} {pl : Nat} {t : Node}
    (h : BuildG bnd ps pl t) : Ordered t := by
  induction h with
  | nil pl => trivial
  | node pre piv suf ps pl l r hperm hpre hsuf hl hr ihl ihr =>
    simp only [Ordered]
    refine ⟨?_, ?_, ihl, ihr⟩
    · intro p hp
      exact hpre p ((buildG_pts hl).mem_iff.mp hp)
    · intro p hp
      exact hsuf p ((buildG_pts hr).mem_iff.mp hp)

theorem insert_ordered (c : Comparable) :
    ∀ (n : Node) (d : Nat), Ordered n → Ordered (Node.insert n c d) := by
  intro n
  induction n with
  | leaf => intro d _; simp [Node.insert, Ordered, Node.pts]
  | node pt pl l r b ihl ihr =>
    intro d ho
    simp only [Ordered] at ho
    obtain ⟨hL, hR, hol, hor⟩ := ho
    by_cases h : compare c pt pl ≤ 0
    · simp only [Node.insert, if_pos h, Ordered]
      refine ⟨?_, hR, ihl _ hol, hor⟩
      intro p hp
      rcases List.mem_cons.mp ((insert_pts c l _).mem_iff.mp hp) with rfl | hold
      · exact h
      · exact hL p hold
    · simp only [Node.insert, if_neg h, Ordered]
      refine ⟨hL, ?_, hol, ihr _ hor⟩
      intro p hp
      rcases List.mem_cons.mp ((insert_pts c r _).mem_iff.mp hp) with rfl | hold
      · exact lt_of_not_le h
      · exact hR p hold

theorem insertBounded_ordered (c : Comparable) :
    ∀ (n : Node) (d : Nat) (bnd : Bool),
      Ordered n → Ordered (Node.insertBounded n c d bnd) := by
  intro n
  induction n with
  | leaf => intro d bnd _; simp [Node.insertBounded, Ordered, Node.pts]
  | node pt pl l r b ihl ihr =>
    intro d bnd ho
    simp only [Ordered] at ho
    obtain ⟨hL, hR, hol, hor⟩ := ho
    by_cases h : compare c pt pl ≤ 0
    · simp only [Node.insertBounded, if_pos h, Ordered]
      refine ⟨?_, hR, ihl _ _ hol, hor⟩
      intro p hp
      rcases List.mem_cons.mp ((insertBounded_pts c l _ _).mem_iff.mp hp) with rfl | hold
      · exact h
      · exact hL p hold
    · simp only [Node.insertBounded, if_neg h, Ordered]
      refine ⟨hL, ?_, hol, ihr _ _ hor⟩
      intro p hp
      rcases List.mem_cons.mp ((insertBounded_pts c r _ _).mem_iff.mp hp) with rfl | hold
      · exact lt_of_not_le h
      · exact hR p hold

/-- C6: the "left-subtree compares ≤ 0, right-subtree compares > 0"
ordering invariant holds for every tree the builder can produce from a
source satisfying the pivot partition postcondition (bounded or not), and
is preserved by every subsequent `Insert`. -/
theorem ordering_invariant :
    (∀ (bnd : Bool) (ps : List Comparable) (pl : Nat) (t : Node),
      BuildG bnd ps pl t → Ordered t) ∧
    (∀ (t : Tree) (c : Comparable) (bnd : Bool),
      Ordered t.root → Ordered ((Tree.Insert t c bnd).root)) := by
  constructor
  · intro bnd ps pl t h
    exact buildG_ordered h
  · intro t c bnd ho
    rcases insert_root_cases t c bnd with ⟨b2, he⟩ | he | he <;> rw [he]
    · exact insertBounded_ordered c t.root 0 b2 ho
    · exact insert_ordered c _ 0 (clearBound_ordered ho)
    · exact insert_ordered c t.root 0 ho

theorem ordering_invariant_witness :
    BuildG false psDemo 0 treeDemo ∧ Ordered treeDemo ∧
    Ordered ((Tree.Insert ⟨treeDemo, 6⟩ ⟨[3, 3], false⟩ false).root) := by
  have h1 : Ordered treeDemo := ordering_invariant.1 false psDemo 0 treeDemo buildDemo
  exact ⟨buildDemo, h1, ordering_invariant.2 ⟨treeDemo, 6⟩ ⟨[3, 3], false⟩ false h1⟩

theorem containsB_iff (b : Bounding) (c : Comparable) :
    containsB b c = true ↔
      ∀ d < c.coords.length, 0 ≤ compare c b.1 d ∧ compare c b.2 d ≤ 0 := by
  simp [containsB, List.all_eq_true, not_lt, not_or]

theorem wf_pts_len {k : Nat} :
    ∀ {n : Node}, WF k n → ∀ p ∈ Node.pts n, p.coords.length = k := by
  intro n
  induction n with
  | leaf => intro _ p hp; cases hp
  | node pt pl l r b ihl ihr =>
    intro hw p hp
    simp only [WF] at hw
    obtain ⟨hpt, hpl, _, _, hwl, hwr⟩ := hw
    simp only [Node.pts, List.mem_append, List.mem_cons] at hp
    rcases hp with hp | rfl | hp
    · exact ihl hwl p hp
    · exact hpt
    · exact ihr hwr p hp

theorem buildG_wf {bnd : Bool} {k : Nat} {ps : List Comparable} {pl : Nat} {t : Node}
    (h : BuildG bnd ps pl t) :
    (∀ p ∈ ps, p.coords.length = k) → pl < k → WF k t := by
  induction h with
  | nil pl => intro _ _; trivial
  | node pre piv suf ps pl l r hperm hpre hsuf hl hr ihl ihr =>
    intro hdims hpl
    have hmem : ∀ p ∈ pre ++ piv :: suf, p ∈ ps := fun p hp => hperm.mem_iff.mp hp
    have hpivk : piv.coords.length = k := hdims piv (hmem piv (by simp))
    have hk : 0 < k := Nat.lt_of_le_of_lt (Nat.zero_le pl) hpl
    have hnp : (pl + 1) % piv.coords.length < k := by
      rw [hpivk]
      exact Nat.mod_lt _ hk
    simp only [WF]
    refine ⟨hpivk, hpl, ?_, ?_, ihl ?_ hnp, ihr ?_ hnp⟩
    · intro p hp
      exact hpre p ((buildG_pts hl).mem_iff.mp hp)
    · intro p hp
      exact hsuf p ((buildG_pts hr).mem_iff.mp hp)
    · intro p hp
      exact hdims p (hmem p (by simp [hp]))
    · intro p hp
      exact hdims p (hmem p (by simp [hp]))

/-- C3 (amended): `doBounded` invokes the visitor only on stored points
contained in the bound, each stored occurrence at most once (a sublist of
the brute-force filter); and it visits exactly the brute-force filter
whenever neither corner coordinate of the bound coincides with a node's
coordinate along that node's plane.  (The original claim's "corner
coordinate ties are still visited" clause is refuted by
`doBounded_missed_point_counterexample`.) -/
theorem doBounded_visits (k : Nat) (b : Bounding) (n : Node) :
    List.Sublist (Node.doBoundedList n b)
      ((Node.pts n).filter (fun p => containsB b p)) ∧
    (WF k n → noCornerTies b n →
      Node.doBoundedList n b = (Node.pts n).filter (fun p => containsB b p)) := by
  induction n with
  | leaf => exact ⟨List.Sublist.refl _, fun _ _ => rfl⟩
  | node pt pl l r bb ihl ihr =>
    have hsl : List.Sublist (if compare b.1 pt pl < 0 then Node.doBoundedList l b else [])
        ((Node.pts l).filter (fun p => containsB b p)) := by
      by_cases h : compare b.1 pt pl < 0
      · simpa [h] using ihl.1
      · simp [h]
    have hsr : List.Sublist (if 0 < compare b.2 pt pl then Node.doBoundedList r b else [])
        ((Node.pts r).filter (fun p => containsB b p)) := by
      by_cases h : 0 < compare b.2 pt pl
      · simpa [h] using ihr.1
      · simp [h]
    constructor
    · simp only [Node.doBoundedList, Node.pts, List.filter_append, List.filter_cons]
      by_cases hpt : containsB b pt = true
      · simp only [if_pos hpt]
        have h2 := List.Sublist.append (List.Sublist.refl [pt]) hsr
        simpa [List.append_assoc] using List.Sublist.append hsl h2
      · simp only [if_neg hpt]
        simpa [List.append_assoc] using List.Sublist.append hsl hsr
    · intro hw ht
      simp only [WF] at hw
      obtain ⟨hptk, hplk, hOL, hOR, hwl, hwr⟩ := hw
      simp only [noCornerTies] at ht
      obtain ⟨hlc, hhc, htl, htr⟩ := ht
      have hLeft : (if compare b.1 pt pl < 0 then Node.doBoundedList l b else []) =
          (Node.pts l).filter (fun p => containsB b p) := by
        by_cases h : compare b.1 pt pl < 0
        · simpa [h] using ihl.2 hwl htl
        · have hgt : 0 < compare b.1 pt pl :=
            lt_of_le_of_ne (not_lt.mp h) (Ne.symm hlc)
          rw [if_neg h]
          symm
          rw [List.filter_eq_nil_iff]
          intro p hp
          have hple : compare p pt pl ≤ 0 := hOL p hp
          have hpk : p.coords.length = k := wf_pts_len hwl p hp
          intro hcont
          rw [containsB_iff] at hcont
          have hc1 := (hcont pl (by rw [hpk]; exact hplk)).1
          simp only [compare] at hc1 hple hgt
          linarith
      have hRight : (if 0 < compare b.2 pt pl then Node.doBoundedList r b else []) =
          (Node.pts r).filter (fun p => containsB b p) := by
        by_cases h : 0 < compare b.2 pt pl
        · simpa [h] using ihr.2 hwr htr
        · have hlt : compare b.2 pt pl < 0 := lt_of_le_of_ne (not_lt.mp h) hhc
          rw [if_neg h]
          symm
          rw [List.filter_eq_nil_iff]
          intro p hp
          have hpgt : 0 < compare p pt pl := hOR p hp
          have hpk : p.coords.length = k := wf_pts_len hwr p hp
          intro hcont
          rw [containsB_iff] at hcont
          have hc2 := (hcont pl (by rw [hpk]; exact hplk)).2
          simp only [compare] at hc2 hpgt hlt
          linarith
      simp only [Node.doBoundedList, Node.pts, List.filter_append, List.filter_cons]
      rw [hLeft, hRight]
      by_cases hpt : containsB b pt = true
      · simp [hpt]
      · simp [hpt]

theorem doBounded_visits_witness :
    WF 2 treeDemo ∧ noCornerTies bDemo treeDemo ∧
    Node.doBoundedList treeDemo bDemo =
      (Node.pts treeDemo).filter (fun p => containsB bDemo p) := by
  have hwf : WF 2 treeDemo := buildG_wf buildDemo (by decide) (by decide)
  have ht : noCornerTies bDemo treeDemo := by
    simp only [treeDemo, noCornerTies]
    refine ⟨?_, ?_, ⟨?_, ?_, ⟨?_, ?_, trivial, trivial⟩, ⟨?_, ?_, trivial, trivial⟩⟩,
      ⟨?_, ?_, ⟨?_, ?_, trivial, trivial⟩, trivial⟩⟩ <;>
      exact of_decide_eq_true (by with_unfolding_all rfl)
  exact ⟨hwf, ht, (doBounded_visits 2 bDemo treeDemo).2 hwf ht⟩

/-- C3 counterexample: in the tree built from the two distinct points
`(0,0)` and `(0,1)`, the query bound whose corners both have first
coordinate 0 contains `(0,0)`, yet `doBounded` never visits it: the low
corner's coordinate equals the root's coordinate along the root's plane,
so the left subtree holding `(0,0)` is skipped. -/
theorem doBounded_missed_point_counterexample :
    BuildG false [p00, p01] 0 treeTie ∧
    containsB bTie p00 = true ∧
    p00 ∈ Node.pts treeTie ∧
    Node.doBoundedList treeTie bTie = [p01] ∧
    (Node.pts treeTie).filter (fun p => containsB bTie p) = [p00, p01] := by
  refine ⟨?_, ?_, ?_, ?_, ?_⟩
  · have h0 : BuildG false [p00] 1 (Node.node p00 1 Node.leaf Node.leaf none) :=
      BuildG.node [] p00 [] [p00] 1 Node.leaf Node.leaf
        (of_decide_eq_true (by with_unfolding_all rfl))
        (of_decide_eq_true (by with_unfolding_all rfl))
        (of_decide_eq_true (by with_unfolding_all rfl))
        (BuildG.nil _) (BuildG.nil _)
    exact BuildG.node [p00] p01 [] [p00, p01] 0 _ _
      (of_decide_eq_true (by with_unfolding_all rfl))
      (of_decide_eq_true (by with_unfolding_all rfl))
      (of_decide_eq_true (by with_unfolding_all rfl))
      h0 (BuildG.nil _)
  · exact of_decide_eq_true (by with_unfolding_all rfl)
  · exact of_decide_eq_true (by with_unfolding_all rfl)
  · exact of_decide_eq_true (by with_unfolding_all rfl)
  · exact of_decide_eq_true (by with_unfolding_all rfl)

theorem extendCorners_lo_length (b : Bounding) (c : Comparable) :
    (extendCorners b c).1.coords.length = min b.1.coords.length c.coords.length := by
  simp [extendCorners, List.length_zipWith]

theorem extendCorners_hi_length (b : Bounding) (c : Comparable) :
    (extendCorners b c).2.coords.length = min b.2.coords.length c.coords.length := by
  simp [extendCorners, List.length_zipWith]

theorem coord_extendCorners_lo (b : Bounding) (c : Comparable) (d : Nat)
    (h1 : d < b.1.coords.length) (h2 : d < c.coords.length) :
    coord (extendCorners b c).1 d = min (coord b.1 d) (coord c d) := by
  have hlen : d < (List.zipWith (min : ℚ → ℚ → ℚ) b.1.coords c.coords).length := by
    rw [List.length_zipWith]
    exact lt_min h1 h2
  simp only [extendCorners, coord]
  rw [List.getD_eq_getElem _ _ hlen, List.getD_eq_getElem _ _ h1,
    List.getD_eq_getElem _ _ h2, List.getElem_zipWith]

theorem coord_extendCorners_hi (b : Bounding) (c : Comparable) (d : Nat)
    (h1 : d < b.2.coords.length) (h2 : d < c.coords.length) :
    coord (extendCorners b c).2 d = max (coord b.2 d) (coord c d) := by
  have hlen : d < (List.zipWith (max : ℚ → ℚ → ℚ) b.2.coords c.coords).length := by
    rw [List.length_zipWith]
    exact lt_min h1 h2
  simp only [extendCorners, coord]
  rw [List.getD_eq_getElem _ _ hlen, List.getD_eq_getElem _ _ h1,
    List.getD_eq_getElem _ _ h2, List.getElem_zipWith]

theorem containsB_extendCorners_self (k : Nat) (b : Bounding) (c : Comparable)
    (hb1 : b.1.coords.length = k) (hb2 : b.2.coords.length = k)
    (hc : c.coords.length = k) :
    containsB (extendCorners b c) c = true := by
  rw [containsB_iff]
  intro d hd
  have hdk : d < k := by rw [← hc]; exact hd
  have h1 := coord_extendCorners_lo b c d (by rw [hb1]; exact hdk) hd
  have h2 := coord_extendCorners_hi b c d (by rw [hb2]; exact hdk) hd
  constructor
  · simp only [compare, h1]
    have := min_le_right (coord b.1 d) (coord c d)
    linarith
  · simp only [compare, h2]
    have := le_max_right (coord b.2 d) (coord c d)
    linarith

theorem containsB_extendCorners_mono (k : Nat) (b : Bounding) (c p : Comparable)
    (hb1 : b.1.coords.length = k) (hb2 : b.2.coords.length = k)
    (hc : c.coords.length = k) (hp : p.coords.length = k)
    (h : containsB b p = true) :
    containsB (extendCorners b c) p = true := by
  rw [containsB_iff] at h ⊢
  intro d hd
  obtain ⟨ha, hb'⟩ := h d hd
  have hdk : d < k := by rw [← hp]; exact hd
  have h1 := coord_extendCorners_lo b c d (by rw [hb1]; exact hdk) (by rw [hc]; exact hdk)
  have h2 := coord_extendCorners_hi b c d (by rw [hb2]; exact hdk) (by rw [hc]; exact hdk)
  constructor
  · simp only [compare] at ha ⊢
    rw [h1]
    have := min_le_left (coord b.1 d) (coord c d)
    linarith
  · simp only [compare] at hb' ⊢
    rw [h2]
    have := le_max_left (coord b.2 d) (coord c d)
    linarith

theorem containsB_self (c : Comparable) : containsB (c, c) c = true := by
  rw [containsB_iff]
  intro d hd
  simp [compare]

theorem foldl_extendCorners_spec (k : Nat) :
    ∀ (l : List Comparable) (b : Bounding),
      b.1.coords.length = k → b.2.coords.length = k →
      (∀ p ∈ l, p.coords.length = k) →
      (l.foldl extendCorners b).1.coords.length = k ∧
      (l.foldl extendCorners b).2.coords.length = k ∧
      (∀ p, p.coords.length = k → containsB b p = true →
        containsB (l.foldl extendCorners b) p = true) ∧
      (∀ p ∈ l, containsB (l.foldl extendCorners b) p = true) := by
  intro l
  induction l with
  | nil =>
    intro b h1 h2 _
    exact ⟨h1, h2, fun p _ hc => hc, fun p hp => absurd hp (List.not_mem_nil p)⟩
  | cons c l ih =>
    intro b h1 h2 hl
    have hck : c.coords.length = k := hl c (List.mem_cons_self c l)
    have hb1 : (extendCorners b c).1.coords.length = k := by
      rw [extendCorners_lo_length, h1, hck, min_self]
    have hb2 : (extendCorners b c).2.coords.length = k := by
      rw [extendCorners_hi_length, h2, hck, min_self]
    have hrest : ∀ p ∈ l, p.coords.length = k :=
      fun p hp => hl p (List.mem_cons_of_mem c hp)
    obtain ⟨g1, g2, g3, g4⟩ := ih (extendCorners b c) hb1 hb2 hrest
    refine ⟨g1, g2, ?_, ?_⟩
    · intro p hpk hc
      exact g3 p hpk (containsB_extendCorners_mono k b c p h1 h2 hck hpk hc)
    · intro p hp
      rcases List.mem_cons.mp hp with rfl | hp
      · exact g3 _ hck (containsB_extendCorners_self k b _ h1 h2 hck)
      · exact g4 p hp

theorem boundsOf_spec (k : Nat) (ps : List Comparable)
    (hdims : ∀ p ∈ ps, p.coords.length = k) :
    ∀ bb ∈ boundsOf ps,
      bb.1.coords.length = k ∧ bb.2.coords.length = k ∧
      ∀ p ∈ ps, containsB bb p = true := by
  cases ps with
  | nil => intro bb hbb; simp [boundsOf] at hbb
  | cons c l =>
    intro bb hbb
    rw [Option.mem_def] at hbb
    simp only [boundsOf] at hbb
    injection hbb with hbb
    subst hbb
    have hck : c.coords.length = k := hdims c (List.mem_cons_self c l)
    have hrest : ∀ p ∈ l, p.coords.length = k :=
      fun p hp => hdims p (List.mem_cons_of_mem c hp)
    obtain ⟨g1, g2, g3, g4⟩ := foldl_extendCorners_spec k l (c, c) hck hck hrest
    refine ⟨g1, g2, ?_⟩
    intro p hp
    rcases List.mem_cons.mp hp with rfl | hp
    · exact g3 _ hck (containsB_self _)
    · exact g4 p hp

theorem mem_some_eq {α : Type} {a b : α} (h : a ∈ (some b : Option α)) : a = b :=
  (Option.mem_some_iff.mp h).symm

theorem dimsOK_pts_len {k : Nat} :
    ∀ {n : Node}, DimsOK k n → ∀ p ∈ Node.pts n, p.coords.length = k := by
  intro n
  induction n with
  | leaf => intro _ p hp; cases hp
  | node pt pl l r b ihl ihr =>
    intro hd p hp
    simp only [DimsOK] at hd
    obtain ⟨hpt, _, hdl, hdr⟩ := hd
    simp only [Node.pts, List.mem_append, List.mem_cons] at hp
    rcases hp with hp | rfl | hp
    · exact ihl hdl p hp
    · exact hpt
    · exact ihr hdr p hp

theorem allBoundNone_boundsOK : ∀ {n : Node}, Node.allBoundNone n = true → BoundsOK n := by
  intro n
  induction n with
  | leaf => intro _; trivial
  | node pt pl l r b ihl ihr =>
    intro h
    simp only [Node.allBoundNone, Bool.and_eq_true, Option.isNone_iff_eq_none] at h
    obtain ⟨⟨hb, hl⟩, hr⟩ := h
    subst hb
    simp only [BoundsOK]
    exact ⟨fun bb hbb => absurd hbb (by simp), ihl hl, ihr hr⟩

theorem insert_allBoundNone (c : Comparable) :
    ∀ (n : Node) (d : Nat), Node.allBoundNone n = true →
      Node.allBoundNone (Node.insert n c d) = true := by
  intro n
  induction n with
  | leaf => intro d _; simp [Node.insert, Node.allBoundNone]
  | node pt pl l r b ihl ihr =>
    intro d h
    simp only [Node.allBoundNone, Bool.and_eq_true] at h
    obtain ⟨⟨hb, hl⟩, hr⟩ := h
    by_cases hc : compare c pt pl ≤ 0 <;>
      simp [Node.insert, hc, Node.allBoundNone, hb, hl, hr, ihl _ hl, ihr _ hr]

theorem clearBound_allBoundNone :
    ∀ {n : Node}, Node.allBoundNone n = true →
      Node.allBoundNone (Node.clearBound n) = true := by
  intro n h
  cases n with
  | leaf => exact h
  | node pt pl l r b =>
    simp only [Node.allBoundNone, Bool.and_eq_true] at h
    simp [Node.clearBound, Node.allBoundNone, h.1.2, h.2]

theorem clearBound_dimsOK {k : Nat} :
    ∀ {n : Node}, DimsOK k n → DimsOK k (Node.clearBound n) := by
  intro n h
  cases n with
  | leaf => trivial
  | node pt pl l r b =>
    simp only [DimsOK] at h ⊢
    exact ⟨h.1, fun bb hbb => absurd hbb (by simp), h.2.2.1, h.2.2.2⟩

theorem insert_dimsOK {k : Nat} (c : Comparable) (hck : c.coords.length = k) :
    ∀ (n : Node) (d : Nat), DimsOK k n → DimsOK k (Node.insert n c d) := by
  intro n
  induction n with
  | leaf =>
    intro d _
    simp only [Node.insert, DimsOK]
    exact ⟨hck, fun bb hbb => absurd hbb (by simp), trivial, trivial⟩
  | node pt pl l r b ihl ihr =>
    intro d h
    simp only [DimsOK] at h
    obtain ⟨h1, h2, h3, h4⟩ := h
    by_cases hc : compare c pt pl ≤ 0
    · simp only [Node.insert, if_pos hc, DimsOK]
      exact ⟨h1, h2, ihl _ h3, h4⟩
    · simp only [Node.insert, if_neg hc, DimsOK]
      exact ⟨h1, h2, h3, ihr _ h4⟩

theorem insertBounded_preserves {k : Nat} (c : Comparable) (hck : c.coords.length = k) :
    ∀ (n : Node) (d : Nat),
      DimsOK k n → Node.allBoundSome n = true → BoundsOK n →
      DimsOK k (Node.insertBounded n c d true) ∧
      Node.allBoundSome (Node.insertBounded n c d true) = true ∧
      BoundsOK (Node.insertBounded n c d true) := by
  intro n
  induction n with
  | leaf =>
    intro d _ _ _
    simp only [Node.insertBounded, if_pos rfl]
    refine ⟨?_, ?_, ?_⟩
    · simp only [DimsOK]
      refine ⟨hck, ?_, trivial, trivial⟩
      intro bb hbb
      have hb := mem_some_eq hbb
      subst hb
      exact ⟨hck, hck⟩
    · simp [Node.allBoundSome]
    · simp only [BoundsOK]
      refine ⟨?_, trivial, trivial⟩
      intro bb hbb
      have hb := mem_some_eq hbb
      subst hb
      intro p hp
      simp only [Node.pts, List.mem_append, List.mem_cons] at hp
      rcases hp with hp | rfl | hp
      · cases hp
      · exact containsB_self p
      · cases hp
  | node pt pl l r b ihl ihr =>
    intro d hD hA hB
    simp only [DimsOK] at hD
    obtain ⟨hptk, hbdim, hDl, hDr⟩ := hD
    simp only [Node.allBoundSome, Bool.and_eq_true] at hA
    obtain ⟨⟨hbs, hAl⟩, hAr⟩ := hA
    simp only [BoundsOK] at hB
    obtain ⟨hBtop, hBl, hBr⟩ := hB
    obtain ⟨bb, hbb⟩ := Option.isSome_iff_exists.mp hbs
    subst hbb
    have hbbmem : bb ∈ (some bb : Option Bounding) := Option.mem_some_iff.mpr rfl
    obtain ⟨hbbk1, hbbk2⟩ := hbdim bb hbbmem
    have hmono : ∀ p ∈ Node.pts (Node.node pt pl l r (some bb)),
        containsB (extendCorners bb c) p = true := by
      intro p hp
      have hpk : p.coords.length = k := by
        simp only [Node.pts, List.mem_append, List.mem_cons] at hp
        rcases hp with h | h | h
        · exact dimsOK_pts_len hDl p h
        · subst h; exact hptk
        · exact dimsOK_pts_len hDr p h
      exact containsB_extendCorners_mono k bb c p hbbk1 hbbk2 hck hpk
        (hBtop bb hbbmem p hp)
    have hdims2 : ∀ bb' ∈ (some (extendCorners bb c) : Option Bounding),
        bb'.1.coords.length = k ∧ bb'.2.coords.length = k := by
      intro bb' hbb'
      have hb := mem_some_eq hbb'
      subst hb
      constructor
      · rw [extendCorners_lo_length, hbbk1, hck, min_self]
      · rw [extendCorners_hi_length, hbbk2, hck, min_self]
    by_cases hc2 : compare c pt pl ≤ 0
    · obtain ⟨g1, g2, g3⟩ := ihl _ hDl hAl hBl
      simp only [Node.insertBounded, if_pos hc2, extend]
      refine ⟨?_, ?_, ?_⟩
      · simp only [DimsOK]
        exact ⟨hptk, hdims2, g1, hDr⟩
      · simp only [Node.allBoundSome, Bool.and_eq_true, Option.isSome_some]
        exact ⟨⟨rfl, g2⟩, hAr⟩
      · simp only [BoundsOK]
        refine ⟨?_, g3, hBr⟩
        intro bb' hbb'
        have hb := mem_some_eq hbb'
        subst hb
        intro p hp
        simp only [Node.pts, List.mem_append, List.mem_cons] at hp
        rcases hp with h | h | h
        · rcases List.mem_cons.mp ((insertBounded_pts c l _ _).mem_iff.mp h) with rfl | h2
          · exact containsB_extendCorners_self k bb _ hbbk1 hbbk2 hck
          · refine hmono p ?_
            simp only [Node.pts, List.mem_append, List.mem_cons]
            exact Or.inl h2
        · subst h
          refine hmono _ ?_
          simp only [Node.pts, List.mem_append, List.mem_cons]
          exact Or.inr (Or.inl trivial)
        · refine hmono p ?_
          simp only [Node.pts, List.mem_append, List.mem_cons]
          exact Or.inr (Or.inr h)
    · obtain ⟨g1, g2, g3⟩ := ihr _ hDr hAr hBr
      simp only [Node.insertBounded, if_neg hc2, extend]
      refine ⟨?_, ?_, ?_⟩
      · simp only [DimsOK]
        exact ⟨hptk, hdims2, hDl, g1⟩
      · simp only [Node.allBoundSome, Bool.and_eq_true, Option.isSome_some]
        exact ⟨⟨rfl, hAl⟩, g2⟩
      · simp only [BoundsOK]
        refine ⟨?_, hBl, g3⟩
        intro bb' hbb'
        have hb := mem_some_eq hbb'
        subst hb
        intro p hp
        simp only [Node.pts, List.mem_append, List.mem_cons] at hp
        rcases hp with h | h | h
        · refine hmono p ?_
          simp only [Node.pts, List.mem_append, List.mem_cons]
          exact Or.inl h
        · subst h
          refine hmono _ ?_
          simp only [Node.pts, List.mem_append, List.mem_cons]
          exact Or.inr (Or.inl trivial)
        · rcases List.mem_cons.mp ((insertBounded_pts c r _ _).mem_iff.mp h) with rfl | h2
          · exact containsB_extendCorners_self k bb _ hbbk1 hbbk2 hck
          · refine hmono p ?_
            simp only [Node.pts, List.mem_append, List.mem_cons]
            exact Or.inr (Or.inr h2)

theorem buildG_allNone {ps : List Comparable} {pl : Nat} {r : Node}
    (h : BuildG false ps pl r) : Node.allBoundNone r = true := by
  induction h with
  | nil pl => rfl
  | node pre piv suf ps pl l r hperm hpre hsuf hl hr ihl ihr =>
    simp [Node.allBoundNone, ihl, ihr]

theorem buildG_allSome {ps : List Comparable} {pl : Nat} {r : Node}
    (h : BuildG true ps pl r) : Node.allBoundSome r = true := by
  induction h with
  | nil pl => rfl
  | node pre piv suf ps pl l r hperm hpre hsuf hl hr ihl ihr =>
    have hs : (boundsOf (pre ++ piv :: suf)).isSome = true := by
      cases pre <;> simp [boundsOf]
    simp [Node.allBoundSome, ihl, ihr, hs]

theorem buildG_dimsBounds {k : Nat} {bnd : Bool} {ps : List Comparable} {pl : Nat}
    {r : Node} (h : BuildG bnd ps pl r) :
    (∀ p ∈ ps, p.coords.length = k) → DimsOK k r ∧ BoundsOK r := by
  induction h with
  | nil pl => intro _; exact ⟨trivial, trivial⟩
  | node pre piv suf ps pl l r hperm hpre hsuf hl hr ihl ihr =>
    intro hdims
    have hmem : ∀ p ∈ pre ++ piv :: suf, p ∈ ps := fun p hp => hperm.mem_iff.mp hp
    have hrange : ∀ p ∈ pre ++ piv :: suf, p.coords.length = k :=
      fun p hp => hdims p (hmem p hp)
    have hpivk : piv.coords.length = k := hrange piv (by simp)
    obtain ⟨hDl, hBl⟩ := ihl fun p hp => hrange p (by simp [hp])
    obtain ⟨hDr, hBr⟩ := ihr fun p hp => hrange p (by simp [hp])
    have hbspec := boundsOf_spec k (pre ++ piv :: suf) hrange
    have hptseq : ∀ p ∈ Node.pts (Node.node piv pl l r
        (if bnd then boundsOf (pre ++ piv :: suf) else none)),
        p ∈ pre ++ piv :: suf := by
      intro p hp
      simp only [Node.pts, List.mem_append, List.mem_cons] at hp
      simp only [List.mem_append, List.mem_cons]
      rcases hp with h | h | h
      · exact Or.inl ((buildG_pts hl).mem_iff.mp h)
      · exact Or.inr (Or.inl h)
      · exact Or.inr (Or.inr ((buildG_pts hr).mem_iff.mp h))
    constructor
    · simp only [DimsOK]
      refine ⟨hpivk, ?_, hDl, hDr⟩
      intro bb hbb
      cases bnd with
      | false => exact absurd hbb (by simp)
      | true =>
        obtain ⟨g1, g2, _⟩ := hbspec bb hbb
        exact ⟨g1, g2⟩
    · simp only [BoundsOK]
      refine ⟨?_, hBl, hBr⟩
      intro bb hbb
      cases bnd with
      | false => exact absurd hbb (by simp)
      | true =>
        obtain ⟨_, _, g3⟩ := hbspec bb hbb
        intro p hp
        exact g3 p (hptseq p hp)

theorem insert_phi {k : Nat} (t : Tree) (c : Comparable) (bnd : Bool)
    (hck : c.coords.length = k)
    (hsafe : c.canExtend = true ∨ Node.bound t.root = none)
    (hD : DimsOK k t.root)
    (hA : Node.allBoundNone t.root = true ∨ Node.allBoundSome t.root = true)
    (hB : BoundsOK t.root) :
    DimsOK k (Tree.Insert t c bnd).root ∧
    (Node.allBoundNone (Tree.Insert t c bnd).root = true ∨
      Node.allBoundSome (Tree.Insert t c bnd).root = true) ∧
    BoundsOK (Tree.Insert t c bnd).root := by
  by_cases h1 :
      (c.canExtend && if t.root.isLeaf then bnd else (Node.bound t.root).isSome) = true
  · have h1' : c.canExtend = true ∧
        (if t.root.isLeaf then bnd else (Node.bound t.root).isSome) = true := by
      simpa [Bool.and_eq_true] using h1
    have hbt := h1'.2
    have hroot : (Tree.Insert t c bnd).root = Node.insertBounded t.root c 0 true := by
      simp [Tree.Insert, h1'.1, hbt]
    have hAS : Node.allBoundSome t.root = true := by
      cases hA with
      | inr h => exact h
      | inl h =>
        cases ht : t.root with
        | leaf => rfl
        | node pt pl l r b =>
          rw [ht] at hbt h
          have hbs : (Node.bound (Node.node pt pl l r b)).isSome = true := by
            simpa [Node.isLeaf] using hbt
          simp only [Node.allBoundNone, Bool.and_eq_true,
            Option.isNone_iff_eq_none] at h
          rw [Node.bound, h.1.1] at hbs
          simp at hbs
    rw [hroot]
    exact insertBounded_preserves c hck t.root 0 hD hAS hB |>.imp id
      (fun h => ⟨Or.inr h.1, h.2⟩)
  · have hAN : Node.allBoundNone t.root = true := by
      cases hA with
      | inl h => exact h
      | inr h =>
        cases ht : t.root with
        | leaf => rfl
        | node pt pl l r b =>
          rw [ht] at h
          simp only [Node.allBoundSome, Bool.and_eq_true] at h
          rcases hsafe with hce | hbn
          · exfalso
            apply h1
            rw [hce, ht]
            simpa [Node.isLeaf, Node.bound] using h.1.1
          · exfalso
            rw [ht, Node.bound] at hbn
            rw [hbn] at h
            simp at h
    have hres : (Tree.Insert t c bnd).root = Node.insert (Node.clearBound t.root) c 0 ∨
        (Tree.Insert t c bnd).root = Node.insert t.root c 0 := by
      by_cases h2 : (!c.canExtend && !t.root.isLeaf) = true
      · exact Or.inl (by simp [Tree.Insert, h1, h2])
      · exact Or.inr (by simp [Tree.Insert, h1, h2])
    have key : ∀ (n0 : Node), Node.allBoundNone n0 = true → DimsOK k n0 →
        DimsOK k (Node.insert n0 c 0) ∧
        (Node.allBoundNone (Node.insert n0 c 0) = true ∨
          Node.allBoundSome (Node.insert n0 c 0) = true) ∧
        BoundsOK (Node.insert n0 c 0) := by
      intro n0 hAN0 hD0
      have hiN := insert_allBoundNone c n0 0 hAN0
      exact ⟨insert_dimsOK c hck n0 0 hD0, Or.inl hiN, allBoundNone_boundsOK hiN⟩
    rcases hres with he | he <;> rw [he]
    · exact key _ (clearBound_allBoundNone hAN) (clearBound_dimsOK hD)
    · exact key _ hAN hD

theorem safeReach_phi {k : Nat} {t : Tree} (h : SafeReach k t) :
    DimsOK k t.root ∧
    (Node.allBoundNone t.root = true ∨ Node.allBoundSome t.root = true) ∧
    BoundsOK t.root := by
  induction h with
  | built bnd ps r hdims hb =>
    obtain ⟨hD, hB⟩ := buildG_dimsBounds hb hdims
    refine ⟨hD, ?_, hB⟩
    cases bnd with
    | false => exact Or.inl (buildG_allNone hb)
    | true => exact Or.inr (buildG_allSome hb)
  | ins t c bnd hsr hck hsafe ih =>
    exact insert_phi t c bnd hck hsafe ih.1 ih.2.1 ih.2.2

theorem listMinW_append (a b : List (WithTop ℚ)) :
    listMinW (a ++ b) = min (listMinW a) (listMinW b) := by
  induction a with
  | nil =>
    simp only [List.nil_append, listMinW, List.foldr_nil]
    exact (min_eq_right le_top).symm
  | cons x a ih =>
    simp only [List.cons_append, listMinW, List.foldr_cons] at ih ⊢
    rw [ih, min_assoc]

theorem listMinW_le {l : List (WithTop ℚ)} {x : WithTop ℚ} (h : x ∈ l) :
    listMinW l ≤ x := by
  induction l with
  | nil => cases h
  | cons y l ih =>
    rcases List.mem_cons.mp h with rfl | h
    · exact min_le_left _ _
    · exact le_trans (min_le_right _ _) (ih h)

theorem le_listMinW {l : List (WithTop ℚ)} {c : WithTop ℚ} (h : ∀ x ∈ l, c ≤ x) :
    c ≤ listMinW l := by
  induction l with
  | nil => exact le_top
  | cons y l ih =>
    exact le_min (h y (List.mem_cons_self y l))
      (ih fun x hx => h x (List.mem_cons_of_mem y hx))

theorem mindistW_node (q pt : Comparable) (pl : Nat) (l r : Node) (b : Option Bounding) :
    mindistW q (Node.node pt pl l r b) =
      min (mindistW q l) (min ((distance q pt : ℚ) : WithTop ℚ) (mindistW q r)) := by
  simp only [mindistW, Node.pts, List.map_append, List.map_cons]
  rw [listMinW_append]
  rfl

theorem mindistW_le {q p : Comparable} {n : Node} (h : p ∈ Node.pts n) :
    mindistW q n ≤ ((distance q p : ℚ) : WithTop ℚ) :=
  listMinW_le (List.mem_map_of_mem _ h)

theorem le_mindistW {q : Comparable} {n : Node} {c : WithTop ℚ}
    (h : ∀ p ∈ Node.pts n, c ≤ ((distance q p : ℚ) : WithTop ℚ)) :
    c ≤ mindistW q n := by
  apply le_listMinW
  intro x hx
  obtain ⟨p, hp, rfl⟩ := List.mem_map.mp hx
  exact h p hp

theorem sq_coord_le_distance (q p : Comparable) (d : Nat) (hd : d < q.coords.length) :
    (coord q d - coord p d) * (coord q d - coord p d) ≤ distance q p := by
  unfold distance
  apply List.single_le_sum
  · intro x hx
    obtain ⟨e, _, rfl⟩ := List.mem_map.mp hx
    exact mul_self_nonneg _
  · exact List.mem_map_of_mem _ (List.mem_range.mpr hd)

theorem far_right_bound {k : Nat} (q pt p : Comparable) (pl : Nat)
    (hq : q.coords.length = k) (hptk : pt.coords.length = k)
    (hpk : p.coords.length = k) (hpl : pl < k)
    (hc : compare q pt pl ≤ 0) (hp : 0 < compare p pt pl) :
    compare q pt pl * compare q pt pl ≤ distance q p := by
  have h1 : (coord q pl - coord p pl) * (coord q pl - coord p pl) ≤ distance q p :=
    sq_coord_le_distance q p pl (by rw [hq]; exact hpl)
  simp only [compare] at hc hp ⊢
  have h0 : 0 ≤ coord pt pl - coord q pl := by linarith
  have hxa : coord pt pl - coord q pl ≤ coord p pl - coord q pl := by linarith
  have h2 := mul_self_le_mul_self h0 hxa
  nlinarith [h1, h2]

theorem far_left_bound {k : Nat} (q pt p : Comparable) (pl : Nat)
    (hq : q.coords.length = k) (hptk : pt.coords.length = k)
    (hpk : p.coords.length = k) (hpl : pl < k)
    (hc : 0 < compare q pt pl) (hp : compare p pt pl ≤ 0) :
    compare q pt pl * compare q pt pl ≤ distance q p := by
  have h1 : (coord q pl - coord p pl) * (coord q pl - coord p pl) ≤ distance q p :=
    sq_coord_le_distance q p pl (by rw [hq]; exact hpl)
  simp only [compare] at hc hp ⊢
  have h0 : 0 ≤ coord q pl - coord pt pl := le_of_lt hc
  have hxa : coord q pl - coord pt pl ≤ coord q pl - coord p pl := by linarith
  have h2 := mul_self_le_mul_self h0 hxa
  nlinarith [h1, h2]

theorem sel_snd (a b : Option Node × WithTop ℚ) : (sel a b).2 = min a.2 b.2 := by
  by_cases h : b.2 < a.2
  · simp only [sel, if_pos h]
    exact (min_eq_right (le_of_lt h)).symm
  · simp only [sel, if_neg h]
    exact (min_eq_left (not_lt.mp h)).symm

theorem realizeIn_mono {q : Comparable} {L L' : List Comparable}
    {res : Option Node × WithTop ℚ} (h : RealizeIn q L res)
    (hsub : ∀ p ∈ L, p ∈ L') : RealizeIn q L' res := by
  obtain ⟨m, h1, h2, h3⟩ := h
  exact ⟨m, h1, hsub _ h2, h3⟩

theorem min_prune_eq (d0 x y z : WithTop ℚ) (h : min (min d0 x) y < z) :
    min d0 (min (min d0 x) y) = min d0 (min y (min x z)) := by
  apply le_antisymm
  · refine le_min (min_le_left _ _) (le_min ?_ (le_min ?_ ?_))
    · exact le_trans (min_le_right _ _) (min_le_right _ _)
    · exact le_trans (min_le_right _ _)
        (le_trans (min_le_left _ _) (min_le_right _ _))
    · exact le_trans (min_le_right _ _) (le_of_lt h)
  · refine le_min (min_le_left _ _) (le_min (le_min (min_le_left _ _) ?_) ?_)
    · exact le_trans (min_le_right _ _)
        (le_trans (min_le_right _ _) (min_le_left _ _))
    · exact le_trans (min_le_right _ _) (min_le_left _ _)

theorem min_join_eq (d0 x y z : WithTop ℚ) :
    min d0 (min (min (min d0 x) y) z) = min d0 (min y (min x z)) := by
  apply le_antisymm
  · refine le_min (min_le_left _ _) (le_min ?_ (le_min ?_ ?_))
    · exact le_trans (min_le_right _ _)
        (le_trans (min_le_left _ _) (min_le_right _ _))
    · exact le_trans (min_le_right _ _) (le_trans (min_le_left _ _)
        (le_trans (min_le_left _ _) (min_le_right _ _)))
    · exact le_trans (min_le_right _ _) (min_le_right _ _)
  · refine le_min (min_le_left _ _)
      (le_min (le_min (le_min (min_le_left _ _) ?_) ?_) ?_)
    · exact le_trans (min_le_right _ _)
        (le_trans (min_le_right _ _) (min_le_left _ _))
    · exact le_trans (min_le_right _ _) (min_le_left _ _)
    · exact le_trans (min_le_right _ _)
        (le_trans (min_le_right _ _) (min_le_right _ _))

theorem min_rot (x y z : WithTop ℚ) : min x (min y z) = min z (min y x) := by
  apply le_antisymm
  · refine le_min ?_ (le_min ?_ (min_le_left _ _))
    · exact le_trans (min_le_right _ _) (min_le_right _ _)
    · exact le_trans (min_le_right _ _) (min_le_left _ _)
  · refine le_min ?_ (le_min ?_ (min_le_left _ _))
    · exact le_trans (min_le_right _ _) (min_le_right _ _)
    · exact le_trans (min_le_right _ _) (min_le_left _ _)

/-- The behaviour of one node step of `search`: the updated best distance
after visiting the node, the near side, and (under the pruning test) the
far side, is the minimum of the incoming distance and the subtree's
brute-force minimum, and a strictly improved result realises its distance
at a stored point. -/
theorem step_spec (q : Comparable) (n0 : Node) (d0 : WithTop ℚ)
    (c dq : ℚ) (near far : Node)
    (La : Option Node × WithTop ℚ) (sfar : WithTop ℚ → Option Node × WithTop ℚ)
    (hdq : dq = distance q (Node.point n0))
    (hLa1 : min (min d0 ((dq : ℚ) : WithTop ℚ)) La.2 =
      min (min d0 ((dq : ℚ) : WithTop ℚ)) (mindistW q near))
    (hLa2 : La.2 < min d0 ((dq : ℚ) : WithTop ℚ) → RealizeIn q (Node.pts near) La)
    (hfar1 : ∀ e, min e (sfar e).2 = min e (mindistW q far))
    (hfar2 : ∀ e, (sfar e).2 < e → RealizeIn q (Node.pts far) (sfar e))
    (hfarB : ((c * c : ℚ) : WithTop ℚ) ≤ mindistW q far)
    (hptmem : Node.point n0 ∈ Node.pts n0)
    (hnear_sub : ∀ p ∈ Node.pts near, p ∈ Node.pts n0)
    (hfar_sub : ∀ p ∈ Node.pts far, p ∈ Node.pts n0) :
    ∀ res : Option Node × WithTop ℚ,
      res = (if ((c * c : ℚ) : WithTop ℚ) ≤
          (sel (some n0, min d0 ((dq : ℚ) : WithTop ℚ)) La).2 then
        sel (sel (some n0, min d0 ((dq : ℚ) : WithTop ℚ)) La)
          (sfar ((sel (some n0, min d0 ((dq : ℚ) : WithTop ℚ)) La).2))
      else sel (some n0, min d0 ((dq : ℚ) : WithTop ℚ)) La) →
      min d0 res.2 =
        min d0 (min (mindistW q near) (min ((dq : ℚ) : WithTop ℚ) (mindistW q far))) ∧
      (res.2 < d0 → RealizeIn q (Node.pts n0) res) := by
  intro res hres
  subst hres
  set cur2 := sel (some n0, min d0 ((dq : ℚ) : WithTop ℚ)) La with hcur2
  have hcsnd : cur2.2 = min (min d0 ((dq : ℚ) : WithTop ℚ)) La.2 := by
    rw [hcur2, sel_snd]
  have hc2 : cur2.2 = min (min d0 ((dq : ℚ) : WithTop ℚ)) (mindistW q near) := by
    rw [hcsnd, hLa1]
  have hcur2real : cur2.2 < d0 → RealizeIn q (Node.pts n0) cur2 := by
    intro hlt
    by_cases hsel : La.2 < (some n0, min d0 ((dq : ℚ) : WithTop ℚ)).2
    · have hEq : cur2 = La := by
        rw [hcur2]
        unfold sel
        rw [if_pos hsel]
      rw [hEq]
      exact realizeIn_mono (hLa2 hsel) hnear_sub
    · have hEq : cur2 = (some n0, min d0 ((dq : ℚ) : WithTop ℚ)) := by
        rw [hcur2]
        unfold sel
        rw [if_neg hsel]
      have hdlt : ((dq : ℚ) : WithTop ℚ) < d0 := by
        rw [hEq] at hlt
        rcases min_lt_iff.mp hlt with h | h
        · exact absurd h (lt_irrefl _)
        · exact h
      refine ⟨n0, by rw [hEq], hptmem, ?_⟩
      rw [hEq]
      show min d0 ((dq : ℚ) : WithTop ℚ) = _
      rw [min_eq_right (le_of_lt hdlt), hdq]
  by_cases hprune : ((c * c : ℚ) : WithTop ℚ) ≤ cur2.2
  · simp only [if_pos hprune]
    constructor
    · rw [sel_snd, hfar1 cur2.2, hc2, min_join_eq]
    · intro hlt
      by_cases hsel2 : (sfar cur2.2).2 < cur2.2
      · have hEq : sel cur2 (sfar cur2.2) = sfar cur2.2 := by
          unfold sel
          rw [if_pos hsel2]
        rw [hEq] at hlt ⊢
        exact realizeIn_mono (hfar2 cur2.2 hsel2) hfar_sub
      · have hEq : sel cur2 (sfar cur2.2) = cur2 := by
          unfold sel
          rw [if_neg hsel2]
        rw [hEq] at hlt ⊢
        exact hcur2real hlt
  · simp only [if_neg hprune]
    constructor
    · have hlt2 : cur2.2 < mindistW q far :=
        lt_of_lt_of_le (not_le.mp hprune) hfarB
      rw [hc2] at hlt2
      rw [hc2]
      exact min_prune_eq _ _ _ _ hlt2
    · exact hcur2real

theorem search_spec {k : Nat} (q : Comparable) (hq : q.coords.length = k) :
    ∀ (n : Node), WF k n → ∀ d0 : WithTop ℚ,
      min d0 (search q n d0).2 = min d0 (mindistW q n) ∧
      ((search q n d0).2 < d0 → RealizeIn q (Node.pts n) (search q n d0)) := by
  intro n
  induction n with
  | leaf =>
    intro _ d0
    constructor
    · simp [search, mindistW, Node.pts, listMinW]
    · intro h
      rw [show (search q Node.leaf d0).2 = ⊤ from rfl] at h
      exact absurd h not_top_lt
  | node pt pl l r b ihl ihr =>
    intro hw d0
    simp only [WF] at hw
    obtain ⟨hptk, hplk, hOL, hOR, hwl, hwr⟩ := hw
    have hptmem : Node.point (Node.node pt pl l r b) ∈
        Node.pts (Node.node pt pl l r b) := by
      simp [Node.point, Node.pts]
    have hsubl : ∀ p ∈ Node.pts l, p ∈ Node.pts (Node.node pt pl l r b) := by
      intro p hp
      simp only [Node.pts, List.mem_append, List.mem_cons]
      exact Or.inl hp
    have hsubr : ∀ p ∈ Node.pts r, p ∈ Node.pts (Node.node pt pl l r b) := by
      intro p hp
      simp only [Node.pts, List.mem_append, List.mem_cons]
      exact Or.inr (Or.inr hp)
    by_cases hc : compare q pt pl ≤ 0
    · have hfarB : ((compare q pt pl * compare q pt pl : ℚ) : WithTop ℚ) ≤
          mindistW q r := by
        apply le_mindistW
        intro p hp
        exact WithTop.coe_le_coe.mpr
          (far_right_bound q pt p pl hq hptk (wf_pts_len hwr p hp) hplk hc (hOR p hp))
      have hstep := step_spec q (Node.node pt pl l r b) d0 (compare q pt pl)
        (distance q pt) l r
        (search q l (min d0 ((distance q pt : ℚ) : WithTop ℚ))) (search q r)
        rfl
        ((ihl hwl (min d0 ((distance q pt : ℚ) : WithTop ℚ))).1)
        ((ihl hwl (min d0 ((distance q pt : ℚ) : WithTop ℚ))).2)
        (fun e => (ihr hwr e).1) (fun e => (ihr hwr e).2)
        hfarB hptmem hsubl hsubr _ rfl
      constructor
      · rw [mindistW_node]
        simp only [search, if_pos hc]
        exact hstep.1
      · simp only [search, if_pos hc]
        exact hstep.2
    · have hc' : 0 < compare q pt pl := lt_of_not_le hc
      have hfarB : ((compare q pt pl * compare q pt pl : ℚ) : WithTop ℚ) ≤
          mindistW q l := by
        apply le_mindistW
        intro p hp
        exact WithTop.coe_le_coe.mpr
          (far_left_bound q pt p pl hq hptk (wf_pts_len hwl p hp) hplk hc' (hOL p hp))
      have hstep := step_spec q (Node.node pt pl l r b) d0 (compare q pt pl)
        (distance q pt) r l
        (search q r (min d0 ((distance q pt : ℚ) : WithTop ℚ))) (search q l)
        rfl
        ((ihr hwr (min d0 ((distance q pt : ℚ) : WithTop ℚ))).1)
        ((ihr hwr (min d0 ((distance q pt : ℚ) : WithTop ℚ))).2)
        (fun e => (ihl hwl e).1) (fun e => (ihl hwl e).2)
        hfarB hptmem hsubr hsubl _ rfl
      constructor
      · rw [mindistW_node,
          min_rot (mindistW q l) ((distance q pt : ℚ) : WithTop ℚ) (mindistW q r)]
        simp only [search, if_neg hc]
        exact hstep.1
      · simp only [search, if_neg hc]
        exact hstep.2

/-- C1: on any non-empty tree built from a point set (any dimension,
uniform dimensionality, either `build` or `buildBounded`), `Nearest(q)`
returns a stored point whose squared distance to `q` is the brute-force
minimum over all stored points, together with that distance; this also
covers `q` coinciding with a stored point (distance 0). -/
theorem nearest_min (k : Nat) (ps : List Comparable) (t : Tree) (q : Comparable)
    (hb : BuildG false ps 0 t.root ∨ BuildG true ps 0 t.root)
    (hne : t.root ≠ Node.leaf) (hk : 0 < k)
    (hps : ∀ p ∈ ps, p.coords.length = k) (hq : q.coords.length = k) :
    ∃ p, p ∈ ps ∧
      Tree.Nearest t q = (some p, ((distance q p : ℚ) : WithTop ℚ)) ∧
      ∀ s ∈ ps, distance q p ≤ distance q s := by
  have hwf : WF k t.root := by
    rcases hb with h | h
    · exact buildG_wf h hps hk
    · exact buildG_wf h hps hk
  have hperm : List.Perm (Node.pts t.root) ps := by
    rcases hb with h | h
    · exact buildG_pts h
    · exact buildG_pts h
  obtain ⟨root, cnt⟩ := t
  cases root with
  | leaf => exact absurd rfl hne
  | node pt pl l r b =>
    obtain ⟨h1, h2⟩ := search_spec q hq (Node.node pt pl l r b) hwf ⊤
    have hmem : pt ∈ Node.pts (Node.node pt pl l r b) := by
      simp [Node.pts]
    have hlt : mindistW q (Node.node pt pl l r b) < ⊤ :=
      lt_of_le_of_lt (mindistW_le hmem) (WithTop.coe_lt_top _)
    have hs2 : (search q (Node.node pt pl l r b) ⊤).2 =
        mindistW q (Node.node pt pl l r b) := by
      rw [min_eq_right le_top, min_eq_right le_top] at h1
      exact h1
    obtain ⟨m, hm1, hm2, hm3⟩ := h2 (by rw [hs2]; exact hlt)
    have hsr : search q (Node.node pt pl l r b) ⊤ =
        (some m, ((distance q (Node.point m) : ℚ) : WithTop ℚ)) := by
      rw [← hm1, ← hm3]
    refine ⟨Node.point m, hperm.mem_iff.mp hm2, ?_, ?_⟩
    · show Tree.Nearest ⟨Node.node pt pl l r b, cnt⟩ q = _
      simp [Tree.Nearest, hsr]
    · intro s hsp
      have hle : mindistW q (Node.node pt pl l r b) ≤
          ((distance q s : ℚ) : WithTop ℚ) := mindistW_le (hperm.mem_iff.mpr hsp)
      exact WithTop.coe_le_coe.mp (by rw [← hm3, hs2]; exact hle)

theorem nearest_min_witness :
    BuildG false psDemo 0 treeDemo ∧
    (∃ p, p ∈ psDemo ∧
      Tree.Nearest ⟨treeDemo, 6⟩ ⟨[9, 2], false⟩ =
        (some p, ((distance ⟨[9, 2], false⟩ p : ℚ) : WithTop ℚ)) ∧
      ∀ s ∈ psDemo, distance ⟨[9, 2], false⟩ p ≤ distance ⟨[9, 2], false⟩ s) ∧
    Tree.Nearest ⟨treeDemo, 6⟩ ⟨[9, 2], false⟩ = (some pE, ((2 : ℚ) : WithTop ℚ)) :=
  ⟨buildDemo,
    nearest_min 2 psDemo ⟨treeDemo, 6⟩ ⟨[9, 2], false⟩ (Or.inl buildDemo) (by decide)
      (by decide) (by decide) (by decide),
    of_decide_eq_true (by with_unfolding_all rfl)⟩

theorem buildTreeB : BuildG true [p0, p1] 0 treeB := by
  have h0 : BuildG true [p0] 0 (Node.node p0 0 Node.leaf Node.leaf (boundsOf [p0])) :=
    BuildG.node [] p0 [] [p0] 0 Node.leaf Node.leaf
      (of_decide_eq_true (by with_unfolding_all rfl))
      (of_decide_eq_true (by with_unfolding_all rfl))
      (of_decide_eq_true (by with_unfolding_all rfl))
      (BuildG.nil _) (BuildG.nil _)
  exact BuildG.node [p0] p1 [] [p0, p1] 0 _ _
    (of_decide_eq_true (by with_unfolding_all rfl))
    (of_decide_eq_true (by with_unfolding_all rfl))
    (of_decide_eq_true (by with_unfolding_all rfl))
    h0 (BuildG.nil _)

/-- C5 (amended): after construction (bounded or not) followed by any
sequence of insertions in which no non-extendable point is inserted while
the root holds a bounding volume, every node holding a bounding volume
contains every point of its own subtree.  Without that restriction the
invariant fails: see `bounds_invariant_counterexample`. -/
theorem bounds_invariant {k : Nat} {t : Tree} (h : SafeReach k t) :
    BoundsOK t.root :=
  (safeReach_phi h).2.2

theorem bounds_invariant_witness :
    SafeReach 1 (Tree.Insert ⟨Node.node p0 0 Node.leaf Node.leaf (boundsOf [p0]),
      ([p0].length : Int)⟩ p1 true) ∧
    BoundsOK (Tree.Insert ⟨Node.node p0 0 Node.leaf Node.leaf (boundsOf [p0]),
      ([p0].length : Int)⟩ p1 true).root := by
  have hb : BuildG true [p0] 0 (Node.node p0 0 Node.leaf Node.leaf (boundsOf [p0])) :=
    BuildG.node [] p0 [] [p0] 0 Node.leaf Node.leaf
      (of_decide_eq_true (by with_unfolding_all rfl))
      (of_decide_eq_true (by with_unfolding_all rfl))
      (of_decide_eq_true (by with_unfolding_all rfl))
      (BuildG.nil _) (BuildG.nil _)
  have hs : SafeReach 1 ⟨Node.node p0 0 Node.leaf Node.leaf (boundsOf [p0]),
      ([p0].length : Int)⟩ :=
    SafeReach.built true [p0] _ (by decide) hb
  have hs2 := SafeReach.ins _ p1 true hs rfl (Or.inl rfl)
  exact ⟨hs2, bounds_invariant hs2⟩

/-- C5 counterexample: insert the non-extendable `cNX` into the bounded
tree built from `[p0, p1]` (an insertion the code permits): the left
child keeps its stale bound `(p0, p0)`, yet `cNX` now lies in that
child's subtree and is not contained in the bound — a node whose bounding
volume does not contain every point of its own subtree. -/
theorem bounds_invariant_counterexample :
    BuildG true [p0, p1] 0 treeB ∧
    Node.bound (Node.left ((Tree.Insert ⟨treeB, 2⟩ cNX true).root)) = some (p0, p0) ∧
    cNX ∈ Node.pts (Node.left ((Tree.Insert ⟨treeB, 2⟩ cNX true).root)) ∧
    containsB (p0, p0) cNX = false :=
  ⟨buildTreeB,
    of_decide_eq_true (by with_unfolding_all rfl),
    of_decide_eq_true (by with_unfolding_all rfl),
    of_decide_eq_true (by with_unfolding_all rfl)⟩

/-- C4 (amended): inserting a non-extendable point into a non-empty tree
whose root holds a bounding volume clears the root's bounding volume only
(the tree is thereafter treated as unbounded by `Insert` and `Contains`);
descendant nodes may retain their bounding volumes, so a torn state does
occur (see `insert_nonextender_torn_counterexample`). -/
theorem insert_nonextender_clears_root (t : Tree) (c : Comparable) (bnd : Bool)
    (hne : t.root ≠ Node.leaf) (hb : (Node.bound t.root).isSome = true)
    (hc : c.canExtend = false) :
    Node.bound ((Tree.Insert t c bnd).root) = none := by
  obtain ⟨root, cnt⟩ := t
  cases root with
  | leaf => exact absurd rfl hne
  | node pt pl l r b =>
    by_cases hcmp : compare c pt pl ≤ 0 <;>
      simp [Tree.Insert, hc, Node.isLeaf, Node.bound, Node.clearBound, Node.insert, hcmp]

theorem insert_nonextender_clears_root_witness :
    (⟨treeB, 2⟩ : Tree).root ≠ Node.leaf ∧
    (Node.bound (⟨treeB, 2⟩ : Tree).root).isSome = true ∧
    cNX.canExtend = false ∧
    Node.bound ((Tree.Insert ⟨treeB, 2⟩ cNX true).root) = none :=
  ⟨by decide, rfl, rfl,
    insert_nonextender_clears_root _ _ _ (by decide) rfl rfl⟩

/-- C4 counterexample: after inserting the non-extendable point `cNX`
into the bounded two-node tree `treeB` (a tree `buildBounded` produces
from `[p0, p1]`), the root's bound is cleared but the left child still
holds its bounding volume — the bounds are not all cleared, and the
resulting reachable state is torn (a bounded node below an unbounded
ancestor). -/
theorem insert_nonextender_torn_counterexample :
    BuildG true [p0, p1] 0 treeB ∧
    (Node.bound treeB).isSome = true ∧
    cNX.canExtend = false ∧
    Node.bound ((Tree.Insert ⟨treeB, 2⟩ cNX true).root) = none ∧
    (Node.bound (Node.left ((Tree.Insert ⟨treeB, 2⟩ cNX true).root))).isSome = true := by
  refine ⟨?_, rfl, rfl, ?_, ?_⟩
  · have h0 : BuildG true [p0] 0 (Node.node p0 0 Node.leaf Node.leaf (boundsOf [p0])) :=
      BuildG.node [] p0 [] [p0] 0 Node.leaf Node.leaf
        (of_decide_eq_true (by with_unfolding_all rfl))
        (of_decide_eq_true (by with_unfolding_all rfl))
        (of_decide_eq_true (by with_unfolding_all rfl))
        (BuildG.nil _) (BuildG.nil _)
    exact BuildG.node [p0] p1 [] [p0, p1] 0 _ _
      (of_decide_eq_true (by with_unfolding_all rfl))
      (of_decide_eq_true (by with_unfolding_all rfl))
      (of_decide_eq_true (by with_unfolding_all rfl))
      h0 (BuildG.nil _)
  · exact of_decide_eq_true (by with_unfolding_all rfl)
  · exact of_decide_eq_true (by with_unfolding_all rfl)

/-- C7: on the empty tree, `Nearest` returns an absent point with `+inf`
distance, and `NearestN` returns an empty point sequence with the
single-element `+inf` distance sequence, for every `n`. -/
theorem empty_tree_sentinels :
    ∀ (cnt : Int) (q : Comparable),
      Tree.Nearest ⟨Node.leaf, cnt⟩ q = (none, (⊤ : WithTop ℚ)) ∧
      ∀ n : Int, Tree.NearestN ⟨Node.leaf, cnt⟩ n q = some ([], [(⊤ : WithTop ℚ)]) :=
  fun _ _ => ⟨rfl, fun _ => rfl⟩

/-- C10: for `n < 1`, `NearestN` on a non-empty tree panics inside
`newNDists` (`make(nDists, 1, n)` with capacity below length), while on
the empty tree the same call returns the empty-tree sentinel normally. -/
theorem nearestN_invalid_n :
    (∀ (t : Tree) (n : Int) (q : Comparable), n < 1 → t.root ≠ Node.leaf →
      Tree.NearestN t n q = none) ∧
    (∀ (cnt n : Int) (q : Comparable),
      Tree.NearestN ⟨Node.leaf, cnt⟩ n q = some ([], [(⊤ : WithTop ℚ)])) := by
  constructor
  · intro t n q hn hne
    obtain ⟨root, cnt⟩ := t
    cases root with
    | leaf => exact absurd rfl hne
    | node pt pl l r b => simp [Tree.NearestN, hn]
  · intro cnt n q
    rfl

theorem nearestN_invalid_n_witness :
    (0 : Int) < 1 ∧
    (⟨Node.node ⟨[0], false⟩ 0 Node.leaf Node.leaf none, 1⟩ : Tree).root ≠ Node.leaf ∧
    Tree.NearestN ⟨Node.node ⟨[0], false⟩ 0 Node.leaf Node.leaf none, 1⟩ 0 ⟨[0], false⟩ =
      none :=
  ⟨by decide, by decide,
    nearestN_invalid_n.1 _ 0 _ (by decide) (by decide)⟩

/-- C8: for a non-empty tree the `bounding` argument of `Insert` is
overwritten by whether the root currently holds a bounding volume, so
`Insert(c, true)` and `Insert(c, false)` build identical trees. -/
theorem insert_bounding_flag_ignored (t : Tree) (c : Comparable)
    (h : t.root ≠ Node.leaf) :
    Tree.Insert t c true = Tree.Insert t c false := by
  obtain ⟨root, cnt⟩ := t
  cases root with
  | leaf => exact absurd rfl h
  | node pt pl l r b => rfl

theorem insert_bounding_flag_ignored_witness :
    (⟨Node.node ⟨[0], false⟩ 0 Node.leaf Node.leaf none, 1⟩ : Tree).root ≠ Node.leaf ∧
    Tree.Insert ⟨Node.node ⟨[0], false⟩ 0 Node.leaf Node.leaf none, 1⟩ ⟨[1], false⟩ true =
      Tree.Insert ⟨Node.node ⟨[0], false⟩ 0 Node.leaf Node.leaf none, 1⟩ ⟨[1], false⟩ false :=
  ⟨by decide, insert_bounding_flag_ignored _ _ (by decide)⟩

/-- C9: `Tree.Contains` on the empty tree dereferences the nil root
(`t.Root.Bounding`) and panics for every argument, whereas on a non-empty
tree without bounding it returns `true`. -/
theorem contains_nil_root (cnt : Int) (c : Comparable) :
    Tree.Contains ⟨Node.leaf, cnt⟩ c = none ∧
    ∀ (t : Tree), t.root ≠ Node.leaf → Node.bound t.root = none →
      Tree.Contains t c = some true := by
  refine ⟨rfl, ?_⟩
  intro t hne hb
  obtain ⟨root, cnt'⟩ := t
  cases root with
  | leaf => exact absurd rfl hne
  | node pt pl l r b =>
    simp only [Node.bound] at hb
    subst hb
    rfl

theorem contains_nil_root_witness :
    (⟨Node.node ⟨[0], false⟩ 0 Node.leaf Node.leaf none, 1⟩ : Tree).root ≠ Node.leaf ∧
    Tree.Contains ⟨Node.node ⟨[0], false⟩ 0 Node.leaf Node.leaf none, 1⟩ ⟨[5], false⟩ =
      some true :=
  ⟨by decide, (contains_nil_root 1 ⟨[5], false⟩).2 _ (by decide) rfl⟩

/-- C2 (failing input): on a tree holding the single point `(0,0)`,
`NearestN(2, (0,0))` leaves the `+inf` seed sentinel (whose `*Node` is
nil) in the retained slice; building the result slices then dereferences
that nil pointer (`n.Point`), a panic — rather than returning
`min(n, Count) = 1` results as the spec states. -/
theorem nearestN_panics_when_n_exceeds_count :
    Tree.NearestN ⟨Node.node ⟨[0, 0], false⟩ 0 Node.leaf Node.leaf none, 1⟩ 2
      ⟨[0, 0], false⟩ = none :=
  of_decide_eq_true (by with_unfolding_all rfl)

end KD
